import Mathlib

/-!
Shallow embedding of the link-parsing and rewriting core of the
pixel-perfect-image plugin (src/utils/utils.ts, src/core/LinkService.ts,
src/core/ImageService.ts), together with theorems checking the
natural-language specification against it.

Document text is modelled as `List Char` (JS strings are sequences of
code points here; none of the verified code distinguishes surrogate
halves).  JS `parseInt` on a digit string is modelled exactly over `Nat`;
fallible JS operations (`decodeURIComponent`) are modelled with `Option`.
-/

namespace PPI

/-- JS whitespace (the set matched by `\s` and trimmed by `String.trim`). -/
def jsIsWhitespace (c : Char) : Bool :=
  c = ' ' || c = '\t' || c = '\n' || c = '\r' ||
  c.toNat = 0x0B || c.toNat = 0x0C || c.toNat = 0xA0 || c.toNat = 0x1680 ||
  (0x2000 ≤ c.toNat && c.toNat ≤ 0x200A) ||
  c.toNat = 0x2028 || c.toNat = 0x2029 || c.toNat = 0x202F ||
  c.toNat = 0x205F || c.toNat = 0x3000 || c.toNat = 0xFEFF

/-- JS `String.prototype.trim`. -/
def jsTrim (cs : List Char) : List Char :=
  ((cs.dropWhile jsIsWhitespace).reverse.dropWhile jsIsWhitespace).reverse

def isDigitCh (c : Char) : Bool := 48 ≤ c.toNat && c.toNat ≤ 57

def isNonZeroDigitCh (c : Char) : Bool := 49 ≤ c.toNat && c.toNat ≤ 57

/-- Value of a decimal digit string (JS `Number.parseInt(s, 10)` on an
all-digit string, modelled exactly over `Nat`). -/
def digitsToNat (cs : List Char) : Nat :=
  cs.foldl (fun n c => 10 * n + (c.toNat - 48)) 0

/-- The optional case-insensitive `px` tail of the size-token regex:
`(?:px)?$` (utils.ts line 120). -/
def sizeSuffixPx : List Char → Bool
  | [] => true
  | [p, x] => (p = 'p' || p = 'P') && (x = 'x' || x = 'X')
  | _ => false

/-- The regex `^([1-9]\d*)(?:x([1-9]\d*))?(?:px)?$` with the `i` flag
(utils.ts line 120, also tested at LinkService.ts line 319), returning the
two captured digit groups on a match.  The regex is deterministic: the
digit runs are maximal and neither optional group can succeed after the
committed alternative fails. -/
def sizeRegexMatch (cs : List Char) : Option (List Char × Option (List Char)) :=
  match cs with
  | [] => none
  | c :: rest =>
    if isNonZeroDigitCh c then
      let g1 := c :: rest.takeWhile isDigitCh
      let r1 := rest.dropWhile isDigitCh
      match r1 with
      | x :: c2 :: rest2 =>
        if (x = 'x' || x = 'X') && isNonZeroDigitCh c2 then
          let g2 := c2 :: rest2.takeWhile isDigitCh
          let r2 := rest2.dropWhile isDigitCh
          if sizeSuffixPx r2 then some (g1, some g2) else none
        else if sizeSuffixPx r1 then some (g1, none) else none
      | _ => if sizeSuffixPx r1 then some (g1, none) else none
    else none

/-- Result shape of `parseObsidianImageSizeParam`. -/
structure SizeParam where
  width : Nat
  height : Option Nat
deriving Repr, DecidableEq

/-- utils.ts `parseObsidianImageSizeParam`: trim, match the size-token
regex, then parse the captured groups (the `Number.isFinite`/positivity
guards are kept as written; over `Nat` a matched group is a nonempty
digit string). -/
def parseObsidianImageSizeParam (value : String) : Option SizeParam :=
  let trimmed := jsTrim value.data
  if trimmed = [] then none
  else
    match sizeRegexMatch trimmed with
    | none => none
    | some (g1, g2) =>
      let width := digitsToNat g1
      if width = 0 then none
      else
        match g2 with
        | none => some ⟨width, none⟩
        | some h =>
          let height := digitsToNat h
          if height = 0 then some ⟨width, none⟩
          else some ⟨width, some height⟩

/-- Result shape of `findLastObsidianImageSizeParam`. -/
structure FoundSizeParam where
  index : Nat
  width : Nat
  height : Option Nat
deriving Repr, DecidableEq

/-- utils.ts `findLastObsidianImageSizeParam`: scan the parameter list
from the end, returning the first (i.e. rightmost) token that parses as a
size, together with its index.  The backwards `for` loop is rendered as
structural recursion that prefers a hit in the tail (higher index) over
one at the head. -/
def findLastObsidianImageSizeParam : List String → Option FoundSizeParam
  | [] => none
  | v :: rest =>
    match findLastObsidianImageSizeParam rest with
    | some f => some ⟨f.index + 1, f.width, f.height⟩
    | none =>
      match parseObsidianImageSizeParam v with
      | some p => some ⟨0, p.width, p.height⟩
      | none => none

/-- ImageService.ts `updateImageLinkWidth`'s parameter transform: replace
the slot of the last size parameter with the new width (dropping any
height suffix), else append the new width. -/
def updateImageLinkWidthTransform (newWidth : Nat) (params : List String) : List String :=
  match findLastObsidianImageSizeParam params with
  | some sizeParam =>
    params.take sizeParam.index ++ toString newWidth :: params.drop (sizeParam.index + 1)
  | none => params ++ [toString newWidth]

/-- ImageService.ts `removeImageWidth`'s parameter transform: delete the
slot of the last size parameter, else return the list unchanged. -/
def removeImageWidthTransform (params : List String) : List String :=
  match findLastObsidianImageSizeParam params with
  | some sizeParam => params.take sizeParam.index ++ params.drop (sizeParam.index + 1)
  | none => params

/-! ### The markdown-style scanner (LinkService.ts `scanMarkdownImageLinks`) -/

/-- The alt-text phase of `scanMarkdownImageLinks` (lines 38-50): starting
just after `![`, skip backslash-escaped characters and stop at the first
unescaped `]`.  Returns the raw description and the text after the `]`;
`none` models `altEnd === -1` (the cursor ran off the end). -/
def altScan : List Char → Option (List Char × List Char)
  | [] => none
  | c :: cs =>
    if c = '\\' then
      match cs with
      | [] => none
      | c2 :: cs2 =>
        match altScan cs2 with
        | none => none
        | some (d, r) => some ('\\' :: c2 :: d, r)
    else if c = ']' then some ([], cs)
    else
      match altScan cs with
      | none => none
      | some (d, r) => some (c :: d, r)

/-- The destination phase of `scanMarkdownImageLinks` (lines 60-81):
paren-depth counting with backslash-escape skipping.  The source starts
the loop on the `(` itself (depth becomes 1); here the scan starts just
after it with `depth = 1`.  Returns the raw destination (text strictly
between the outer parens) and the text after the closing `)`; `none`
models `destEndParen === -1`.  Depth is an integer exactly as in JS. -/
def destScan (depth : Int) : List Char → Option (List Char × List Char)
  | [] => none
  | c :: cs =>
    if c = '\\' then
      match cs with
      | [] => none
      | c2 :: cs2 =>
        match destScan depth cs2 with
        | none => none
        | some (d, r) => some ('\\' :: c2 :: d, r)
    else if c = '(' then
      match destScan (depth + 1) cs with
      | none => none
      | some (d, r) => some ('(' :: d, r)
    else if c = ')' then
      if depth = 1 then some ([], cs)
      else
        match destScan (depth - 1) cs with
        | none => none
        | some (d, r) => some (')' :: d, r)
    else
      match destScan depth cs with
      | none => none
      | some (d, r) => some (c :: d, r)

/-- One recognized piece of document text: either a plain character or a
markdown-style image link `![description](rawDestination)`. -/
inductive MdSegment where
  | plain (c : Char)
  | link (description rawDestination : List Char)
deriving Repr, DecidableEq

/-- The main loop of `scanMarkdownImageLinks` (lines 32-100), rendered as
a split of the text into segments.  A failed alt phase (no unescaped `]`,
or the `]` not followed by `(`) resumes scanning one character after the
`!` (line 54).  A failed destination phase executes `break` (line 83):
the remainder of the text is emitted unscanned.  The fuel argument is
spent once per loop iteration; `input.length` iterations always suffice
because each iteration consumes at least one character. -/
def mdSegGo : Nat → List Char → List MdSegment
  | 0, _ => []
  | _ + 1, [] => []
  | fuel + 1, '!' :: '[' :: cs =>
    (match altScan cs with
     | some (desc, '(' :: rest2) =>
       (match destScan 1 rest2 with
        | some (rawDest, rest3) => .link desc rawDest :: mdSegGo fuel rest3
        | none => ('!' :: '[' :: cs).map .plain)
     | _ => .plain '!' :: mdSegGo fuel ('[' :: cs))
  | fuel + 1, c :: cs => .plain c :: mdSegGo fuel cs

/-- Segment decomposition of a text by the markdown-style scanner. -/
def mdSegments (cs : List Char) : List MdSegment :=
  mdSegGo (cs.length + 1) cs

/-- The raw text of a scanned markdown-style image link:
`fullMatch = "![" + description + "](" + rawDestination + ")"`
(LinkService.ts line 87). -/
def mdOriginal (desc rawDest : List Char) : List Char :=
  '!' :: '[' :: (desc ++ ']' :: '(' :: (rawDest ++ [')']))

/-- Reassemble segmented text, replacing each link by `f description
rawDestination` (the string-building of `replaceMarkdownImageLinks`,
LinkService.ts lines 152-167). -/
def mdRender (f : List Char → List Char → List Char) : List MdSegment → List Char
  | [] => []
  | .plain c :: rest => c :: mdRender f rest
  | .link d r :: rest => f d r ++ mdRender f rest

/-- The match list produced by `scanMarkdownImageLinks`: the
`(description, rawDestination)` pair of each matched link, in order. -/
def scanMarkdownImageLinks (cs : List Char) : List (List Char × List Char) :=
  (mdSegments cs).filterMap fun s =>
    match s with
    | .link d r => some (d, r)
    | .plain _ => none

/-! ### The wiki-style scanner (constants.ts `WIKILINK_IMAGE_REGEX`) -/

/-- One recognized piece of document text for the wiki-style pass: a
plain character or the capture of `!\[\[([^\]]+)\]\]`. -/
inductive WikiSegment where
  | plain (c : Char)
  | link (inner : List Char)
deriving Repr, DecidableEq

/-- Global matching of `WIKILINK_IMAGE_REGEX = /!\[\[([^\]]+)\]\]/g`
(constants.ts line 3) as used by `String.replace`: at each position, a
match needs `![[`, then a nonempty maximal run of non-`]` characters,
then `]]`; on failure the scan advances one character.  The character
class excludes the closer, so the greedy run is the only candidate and
matching is deterministic.  Fuel as in `mdSegGo`. -/
def wikiSegGo : Nat → List Char → List WikiSegment
  | 0, _ => []
  | _ + 1, [] => []
  | fuel + 1, '!' :: '[' :: '[' :: cs =>
    (match cs.takeWhile (fun c => c ≠ ']'), cs.dropWhile (fun c => c ≠ ']') with
     | a :: inner, ']' :: ']' :: rest2 => .link (a :: inner) :: wikiSegGo fuel rest2
     | _, _ => .plain '!' :: wikiSegGo fuel ('[' :: '[' :: cs))
  | fuel + 1, c :: cs => .plain c :: wikiSegGo fuel cs

/-- Segment decomposition of a text by the wiki-style regex. -/
def wikiSegments (cs : List Char) : List WikiSegment :=
  wikiSegGo (cs.length + 1) cs

/-- The raw text of a wiki-style match: `![[` + inner + `]]`. -/
def wikiOriginal (inner : List Char) : List Char :=
  '!' :: '[' :: '[' :: (inner ++ [']', ']'])

/-- Reassemble segmented text, replacing each wiki match capture by
`f inner` (the behaviour of `text.replace(WIKILINK_IMAGE_REGEX, ...)`). -/
def wikiRender (f : List Char → List Char) : List WikiSegment → List Char
  | [] => []
  | .plain c :: rest => c :: wikiRender f rest
  | .link inner :: rest => f inner ++ wikiRender f rest

/-! ### Destination splitting (LinkService.ts `splitMarkdownLinkDestination`) -/

/-- The angle-bracket arm (lines 112-129): from just after `<`, skip
escapes and stop at the first unescaped `>`; `none` models the cursor
running past the end (the source then falls through to plain parsing). -/
def angleScan : List Char → Option (List Char × List Char)
  | [] => none
  | c :: cs =>
    if c = '\\' then
      match cs with
      | [] => none
      | c2 :: cs2 =>
        match angleScan cs2 with
        | none => none
        | some (d, r) => some ('\\' :: c2 :: d, r)
    else if c = '>' then some ([], cs)
    else
      match angleScan cs with
      | none => none
      | some (d, r) => some (c :: d, r)

/-- The plain arm (lines 132-141): consume until the first unescaped
whitespace character; escape-skipped characters stay in the url.  A
trailing lone backslash is consumed into the url (the JS cursor jumps
past the end and `substring` clamps). -/
def plainScan : List Char → List Char × List Char
  | [] => ([], [])
  | c :: cs =>
    if c = '\\' then
      match cs with
      | [] => (['\\'], [])
      | c2 :: cs2 =>
        match plainScan cs2 with
        | (d, r) => ('\\' :: c2 :: d, r)
    else if jsIsWhitespace c then ([], c :: cs)
    else
      match plainScan cs with
      | (d, r) => (c :: d, r)

/-- LinkService.ts `splitMarkdownLinkDestination` (lines 103-146):
returns `(url, titleSuffix)`. -/
def splitMarkdownLinkDestination (raw : List Char) : List Char × List Char :=
  let rest := raw.dropWhile jsIsWhitespace
  match rest with
  | [] => ([], [])
  | '<' :: afterLt =>
    (match angleScan afterLt with
     | some (inner, after) => (jsTrim inner, after)
     | none =>
       match plainScan rest with
       | (url, suffix) => (jsTrim url, suffix))
  | _ =>
    match plainScan rest with
    | (url, suffix) => (jsTrim url, suffix)

/-! ### Percent encoding and decoding (JS `encodeURIComponent`,
`decodeURIComponent`, utils.ts `safeDecodeURIComponent`) -/

/-- Characters `encodeURIComponent` leaves unescaped:
`A-Z a-z 0-9 - _ . ! ~ * ' ( )`. -/
def isUriUnescaped (c : Char) : Bool :=
  (65 ≤ c.toNat && c.toNat ≤ 90) || (97 ≤ c.toNat && c.toNat ≤ 122) ||
  isDigitCh c || c = '-' || c = '_' || c = '.' || c = '!' || c = '~' ||
  c = '*' || c = '\'' || c = '(' || c = ')'

def hexDigitUpper (n : Nat) : Char :=
  if n < 10 then Char.ofNat (48 + n) else Char.ofNat (65 + (n - 10))

/-- `%HH` with uppercase hex for one byte. -/
def byteToPercent (b : Nat) : List Char :=
  ['%', hexDigitUpper (b / 16), hexDigitUpper (b % 16)]

/-- UTF-8 bytes of a code point. -/
def utf8Bytes (n : Nat) : List Nat :=
  if n < 0x80 then [n]
  else if n < 0x800 then [0xC0 + n / 0x40, 0x80 + n % 0x40]
  else if n < 0x10000 then
    [0xE0 + n / 0x1000, 0x80 + n / 0x40 % 0x40, 0x80 + n % 0x40]
  else
    [0xF0 + n / 0x40000, 0x80 + n / 0x1000 % 0x40, 0x80 + n / 0x40 % 0x40,
     0x80 + n % 0x40]

/-- JS `encodeURIComponent`. -/
def jsEncodeURIComponent (cs : List Char) : List Char :=
  (cs.map fun c =>
    if isUriUnescaped c then [c] else ((utf8Bytes c.toNat).map byteToPercent).flatten).flatten

/-- LinkService.ts `encodeMarkdownPathSegment` (lines 148-150):
`encodeURIComponent` followed by additionally escaping `! ' ( ) *`. -/
def encodeMarkdownPathSegment (s : String) : String :=
  ⟨((jsEncodeURIComponent s.data).map fun c =>
    if c = '!' || c = '\'' || c = '(' || c = ')' || c = '*' then byteToPercent c.toNat
    else [c]).flatten⟩

def hexVal (c : Char) : Option Nat :=
  if 48 ≤ c.toNat && c.toNat ≤ 57 then some (c.toNat - 48)
  else if 65 ≤ c.toNat && c.toNat ≤ 70 then some (c.toNat - 55)
  else if 97 ≤ c.toNat && c.toNat ≤ 102 then some (c.toNat - 87)
  else none

/-- Continuation-byte count demanded by a UTF-8 leading byte `≥ 0x80`;
`none` for bytes that cannot lead a sequence. -/
def utf8ContCount (b : Nat) : Option Nat :=
  if b < 0xC0 then none
  else if b ≤ 0xDF then some 1
  else if b ≤ 0xEF then some 2
  else if b ≤ 0xF7 then some 3
  else none

/-- Read `k` escaped continuation bytes `%HH` (each in `0x80..0xBF`)
from the front of the text; the caller advances by `3 * k` characters. -/
def readContBytes : Nat → List Char → Option (List Nat)
  | 0, _ => some []
  | k + 1, '%' :: h1 :: h2 :: cs =>
    (match hexVal h1, hexVal h2 with
     | some a, some b =>
       let byte := 16 * a + b
       if 0x80 ≤ byte && byte < 0xC0 then
         match readContBytes k cs with
         | some bs => some (byte :: bs)
         | none => none
       else none
     | _, _ => none)
  | _ + 1, _ => none

/-- Strict UTF-8 sequence value: rejects overlong forms, surrogate code
points and values above `0x10FFFF`, as the ECMAScript `Decode` abstract
operation does. -/
def utf8Combine (b : Nat) (bs : List Nat) : Option Nat :=
  match bs with
  | [b1] =>
    let cp := (b - 0xC0) * 0x40 + (b1 - 0x80)
    if 0x80 ≤ cp then some cp else none
  | [b1, b2] =>
    let cp := (b - 0xE0) * 0x1000 + (b1 - 0x80) * 0x40 + (b2 - 0x80)
    if 0x800 ≤ cp && !(0xD800 ≤ cp && cp ≤ 0xDFFF) then some cp else none
  | [b1, b2, b3] =>
    let cp := (b - 0xF0) * 0x40000 + (b1 - 0x80) * 0x1000 +
      (b2 - 0x80) * 0x40 + (b3 - 0x80)
    if 0x10000 ≤ cp && cp ≤ 0x10FFFF then some cp else none
  | _ => none

/-- JS `decodeURIComponent` with the URIError modelled as `none`:
unescaped characters pass through; each `%` must be followed by two hex
digits; a lead byte `≥ 0x80` must be followed by its escaped
continuation bytes forming a valid UTF-8 sequence.  Fuel is spent once
per decoded unit; each unit consumes at least one character. -/
def decodeGo : Nat → List Char → Option (List Char)
  | 0, _ => none
  | _ + 1, [] => some []
  | fuel + 1, c :: cs =>
    if c = '%' then
      match cs with
      | h1 :: h2 :: rest =>
        (match hexVal h1, hexVal h2 with
         | some a, some b =>
           let byte := 16 * a + b
           if byte < 0x80 then
             match decodeGo fuel rest with
             | some d => some (Char.ofNat byte :: d)
             | none => none
           else
             (match utf8ContCount byte with
              | none => none
              | some k =>
                match readContBytes k rest with
                | none => none
                | some bs =>
                  match utf8Combine byte bs with
                  | none => none
                  | some cp =>
                    match decodeGo fuel (rest.drop (3 * k)) with
                    | some d => some (Char.ofNat cp :: d)
                    | none => none)
         | _, _ => none)
      | _ => none
    else
      match decodeGo fuel cs with
      | some d => some (c :: d)
      | none => none

/-- `decodeURIComponent` as a total function into `Option` (`none` means
the JS call throws `URIError`). -/
def decodeURIComponentE (s : String) : Option String :=
  (decodeGo (s.data.length + 1) s.data).map fun d => ⟨d⟩

/-- utils.ts `safeDecodeURIComponent` (lines 94-100): decode, and return
the input unchanged when decoding throws. -/
def safeDecodeURIComponent (value : String) : String :=
  (decodeURIComponentE value).getD value

/-! ### Link component parsing and rebuilding (LinkService.ts) -/

/-- JS `s.split(sep)` for a one-character separator: always returns at
least one (possibly empty) group. -/
def splitChar (sep : Char) : List Char → List (List Char)
  | [] => [[]]
  | c :: cs =>
    if c = sep then [] :: splitChar sep cs
    else
      match splitChar sep cs with
      | [] => [[c]]
      | g :: gs => (c :: g) :: gs

/-- JS `s.split('#', 2)` destructured as `[first, second]`: the part
before the first `#`, and (when a `#` occurs) the part strictly between
the first `#` and the next `#` or the end.  With a limit of 2 the JS
split drops everything from a second `#` on. -/
def splitHashLimit2 (cs : List Char) : List Char × Option (List Char) :=
  let before := cs.takeWhile (fun c => c ≠ '#')
  match cs.dropWhile (fun c => c ≠ '#') with
  | [] => (before, none)
  | _ :: rest => (before, some (rest.takeWhile (fun c => c ≠ '#')))

/-- The `ImageLink` shape produced by `parseLinkComponents`. -/
structure ImageLink where
  path : String
  hash : String
  params : List String
  isWikiStyle : Bool
deriving Repr, DecidableEq

/-- The wiki-style arm of `parseLinkComponents` (LinkService.ts lines
303-327): the first piped segment is split at its first `#` when it has
one; otherwise, when the last parameter contains `#` and the part before
it is size-shaped, the hash is taken from there.  Factored out because
the JS truthiness test `if (linkPath)` routes both a missing and an
empty destination to this arm. -/
def parseLinkComponentsWiki (mainPart : String) : ImageLink :=
  let groups := splitChar '|' mainPart.data
  let pathAndMaybeHash := groups.headD []
  let rawParams := groups.tail
  if pathAndMaybeHash.contains '#' then
    let path := pathAndMaybeHash.takeWhile (fun c => c ≠ '#')
    let hash := pathAndMaybeHash.dropWhile (fun c => c ≠ '#')
    ⟨⟨path⟩, ⟨hash⟩, rawParams.map fun g => (⟨g⟩ : String), true⟩
  else
    match rawParams.getLast? with
    | some lastParam =>
      if lastParam.contains '#' then
        let paramFront := lastParam.takeWhile (fun c => c ≠ '#')
        let hashTail := lastParam.dropWhile (fun c => c ≠ '#')
        if (sizeRegexMatch paramFront).isSome then
          ⟨⟨pathAndMaybeHash⟩, ⟨hashTail⟩,
           (rawParams.dropLast ++ [paramFront]).map fun g => (⟨g⟩ : String), true⟩
        else
          ⟨⟨pathAndMaybeHash⟩, "", rawParams.map fun g => (⟨g⟩ : String), true⟩
      else
        ⟨⟨pathAndMaybeHash⟩, "", rawParams.map fun g => (⟨g⟩ : String), true⟩
    | none => ⟨⟨pathAndMaybeHash⟩, "", [], true⟩

/-- LinkService.ts `parseLinkComponents` (lines 291-327).  The branch
test is the JS truthiness check `if (linkPath)`: the markdown arm runs
only for a present, nonempty destination; an empty destination — as
produced by `![alt]()` — is falsy and is parsed wiki-style from the
description.  In the markdown arm the hash is split off the destination
before percent-decoding, with JS `split('#', 2)` semantics, and an empty
second group is falsy so the hash becomes empty. -/
def parseLinkComponents (mainPart : String) (linkPath : Option String) : ImageLink :=
  match linkPath with
  | some lp =>
    if lp = "" then parseLinkComponentsWiki mainPart
    else
      let rawPathWithoutHash := (splitHashLimit2 lp.data).1
      let rawHash := (splitHashLimit2 lp.data).2
      let hash : List Char :=
        match rawHash with
        | some h => if h ≠ [] then '#' :: h else []
        | none => []
      let path := safeDecodeURIComponent ⟨rawPathWithoutHash⟩
      let params := ((splitChar '|' mainPart.data).tail).map fun g => (⟨g⟩ : String)
      ⟨path, ⟨hash⟩, params, false⟩
  | none => parseLinkComponentsWiki mainPart

/-- LinkService.ts `buildLinkPath` (lines 346-364): path (per-segment
percent-encoded when `encode`), then `|`-joined parameters, then hash. -/
def buildLinkPath (link : ImageLink) (encode : Bool) : String :=
  let paramsStr : String :=
    if link.params ≠ [] then "|" ++ String.intercalate "|" link.params else ""
  let finalPath : String :=
    if encode then
      String.intercalate "/" ((link.path.splitOn "/").map encodeMarkdownPathSegment)
    else link.path
  finalPath ++ paramsStr ++ link.hash

/-! ### The rewrite pass (LinkService.ts `updateLinks`) -/

/-- The wiki-style replacer of `updateLinks` (lines 200-214).  The
vault's `getFirstLinkpathDest`/path comparison (`resolveLink`) is an
external collaborator, abstracted as the oracle `resolve : String → Bool`
saying whether a parsed path resolves to the image of interest.  A
non-resolving match is returned as its original text. -/
def wikiReplacer (resolve : String → Bool) (transform : List String → List String)
    (inner : List Char) : List Char :=
  let link := parseLinkComponents ⟨inner⟩ none
  if resolve link.path then
    ("![[" ++ buildLinkPath { link with params := transform link.params } false ++ "]]").data
  else wikiOriginal inner

/-- The markdown-style replacer of `updateLinks` (lines 217-237): the
new parameters are joined into the description (falling back to the
image file's basename when the caption is blank) and the destination is
rebuilt with an encoded path, no parameters, and the original title
suffix. -/
def mdReplacer (resolve : String → Bool) (basename : String)
    (transform : List String → List String) (description rawDest : List Char) : List Char :=
  let linkPath := (splitMarkdownLinkDestination rawDest).1
  let titleSuffix := (splitMarkdownLinkDestination rawDest).2
  let link := parseLinkComponents ⟨description⟩ (some ⟨linkPath⟩)
  if resolve link.path then
    let baseDesc := jsTrim ((splitChar '|' description).headD [])
    let desc : String := if baseDesc = [] then basename else ⟨baseDesc⟩
    let newParams := transform link.params
    let newDescription : String :=
      if newParams ≠ [] then String.intercalate "|" (desc :: newParams) else desc
    let newDestination : String :=
      buildLinkPath { link with params := [] } true ++ ⟨titleSuffix⟩
    ("![" ++ newDescription ++ "](" ++ newDestination ++ ")").data
  else mdOriginal description rawDest

/-- LinkService.ts `updateLinks` (lines 198-238) on raw text: the
wiki-style regex replacement pass followed by the markdown-style scan
replacement pass. -/
def updateLinksL (resolve : String → Bool) (basename : String)
    (transform : List String → List String) (text : List Char) : List Char :=
  let afterWiki := wikiRender (wikiReplacer resolve transform) (wikiSegments text)
  mdRender (mdReplacer resolve basename transform) (mdSegments afterWiki)

/-- `updateLinks` at `String` type. -/
def updateLinks (resolve : String → Bool) (basename : String)
    (transform : List String → List String) (text : String) : String :=
  ⟨updateLinksL resolve basename transform text.data⟩

/-! ### Frontmatter handling (LinkService.ts `splitFrontmatter`,
`updateImageLinks`) -/

/-- The opening delimiter `^---\r?\n`: returns the consumed opener and
the rest. -/
def fmOpen : List Char → Option (List Char × List Char)
  | '-' :: '-' :: '-' :: '\n' :: rest => some (['-', '-', '-', '\n'], rest)
  | '-' :: '-' :: '-' :: '\r' :: '\n' :: rest => some (['-', '-', '-', '\r', '\n'], rest)
  | _ => none

/-- A closing delimiter `\r?\n---(?:\r?\n|$)` starting exactly here: the
`\n` must be the head, followed by `---` and then a newline or the end.
(The optional `\r` before the `\n` lies inside the lazily-matched body
and does not change the match span.)  Returns the consumed closer and
the rest. -/
def fmCloseHere : List Char → Option (List Char × List Char)
  | '\n' :: '-' :: '-' :: '-' :: rest =>
    (match rest with
     | [] => some (['\n', '-', '-', '-'], [])
     | '\n' :: r => some (['\n', '-', '-', '-', '\n'], r)
     | '\r' :: '\n' :: r => some (['\n', '-', '-', '-', '\r', '\n'], r)
     | _ => none)
  | _ => none

/-- Lazy search for the earliest closing delimiter (the `[\s\S]*?` of
the frontmatter regex): returns (body plus closer, rest). -/
def fmScanClose : List Char → Option (List Char × List Char)
  | [] => none
  | c :: cs =>
    match fmCloseHere (c :: cs) with
    | some (close, r) => some (close, r)
    | none =>
      match fmScanClose cs with
      | none => none
      | some (d, r) => some (c :: d, r)

/-- LinkService.ts `splitFrontmatter` (lines 169-177): match
`/^---\r?\n[\s\S]*?\r?\n---(?:\r?\n|$)/` lazily; if the file does not
start with `---` or no closing delimiter exists, the whole text is
content and the frontmatter is empty. -/
def splitFrontmatter (data : List Char) : List Char × List Char :=
  match fmOpen data with
  | none => ([], data)
  | some (opener, afterOpen) =>
    match fmScanClose afterOpen with
    | none => ([], data)
    | some (body, content) => (opener ++ body, content)

/-- The mutation callback of `updateImageLinks` (LinkService.ts lines
381-390), the read-modify-write body handed to the vault's atomic
`process` primitive: split off frontmatter, rewrite the content, return
the input unchanged on a no-op, else re-prepend the frontmatter (JS
string truthiness: an empty frontmatter skips the template concat). -/
def updateImageLinksData (resolve : String → Bool) (basename : String)
    (transform : List String → List String) (data : List Char) : List Char :=
  let fm := (splitFrontmatter data).1
  let content := (splitFrontmatter data).2
  let replacedText := updateLinksL resolve basename transform content
  if replacedText = content then data
  else if fm ≠ [] then fm ++ replacedText else replacedText

/-! ## Theorems

Reconstruction lemmas: each scanner phase consumed exactly the text it
reports, so re-emitting a match's raw text reproduces the input. -/

theorem altScan_eq : ∀ cs d r, altScan cs = some (d, r) → cs = d ++ ']' :: r := by
  intro cs
  induction cs using altScan.induct with
  | case1 => simp [altScan]
  | case2 => simp [altScan]
  | case3 c2 cs2 hx ih =>
    intro d r h
    rw [altScan.eq_def] at h
    simp [hx] at h
  | case4 c2 cs2 d0 r0 hx ih =>
    intro d r h
    rw [altScan.eq_def] at h
    simp [hx] at h
    obtain ⟨rfl, rfl⟩ := h
    simp [ih d0 r0 hx]
  | case5 cs2 hne =>
    intro d r h
    rw [altScan.eq_def] at h
    simp at h
    obtain ⟨rfl, rfl⟩ := h
    simp
  | case6 c cs2 hb hrb hx ih =>
    intro d r h
    rw [altScan.eq_def] at h
    simp [hb, hrb, hx] at h
  | case7 c cs2 hb hrb d0 r0 hx ih =>
    intro d r h
    rw [altScan.eq_def] at h
    simp [hb, hrb, hx] at h
    obtain ⟨rfl, rfl⟩ := h
    simp [ih d0 r0 hx]

theorem destScan_eq : ∀ depth cs d r, destScan depth cs = some (d, r) → cs = d ++ ')' :: r := by
  intro depth cs
  induction depth, cs using destScan.induct with
  | case1 => simp [destScan]
  | case2 => simp [destScan]
  | case3 depth c2 cs2 hx ih =>
    intro d r h
    rw [destScan.eq_def] at h
    simp [hx] at h
  | case4 depth c2 cs2 d0 r0 hx ih =>
    intro d r h
    rw [destScan.eq_def] at h
    simp [hx] at h
    obtain ⟨rfl, rfl⟩ := h
    simp [ih d0 r0 hx]
  | case5 depth cs2 hx hb ih =>
    intro d r h
    rw [destScan.eq_def] at h
    simp [hx] at h
  | case6 depth cs2 d0 r0 hx hb ih =>
    intro d r h
    rw [destScan.eq_def] at h
    simp [hx] at h
    obtain ⟨rfl, rfl⟩ := h
    simp [ih d0 r0 hx]
  | case7 cs2 hb hp =>
    intro d r h
    rw [destScan.eq_def] at h
    simp at h
    obtain ⟨rfl, rfl⟩ := h
    simp
  | case8 depth cs2 hd1 hx hb hp ih =>
    intro d r h
    rw [destScan.eq_def] at h
    simp [hd1, hx] at h
  | case9 depth cs2 hd1 d0 r0 hx hb hp ih =>
    intro d r h
    rw [destScan.eq_def] at h
    simp [hd1, hx] at h
    obtain ⟨rfl, rfl⟩ := h
    simp [ih d0 r0 hx]
  | case10 depth c2 cs2 hb hp hcl hx ih =>
    intro d r h
    rw [destScan.eq_def] at h
    simp [hb, hp, hcl, hx] at h
  | case11 depth c2 cs2 hb hp hcl d0 r0 hx ih =>
    intro d r h
    rw [destScan.eq_def] at h
    simp [hb, hp, hcl, hx] at h
    obtain ⟨rfl, rfl⟩ := h
    simp [ih d0 r0 hx]

theorem mdRender_map_plain (f : List Char → List Char → List Char) (l : List Char) :
    mdRender f (l.map .plain) = l := by
  induction l with
  | nil => rfl
  | cons c cs ih => simp [mdRender, ih]

/-- Step equation: a position whose alt phase and destination phase both
close produces a link segment and the scan continues after the match. -/
theorem mdSegGo_step_link (fuel : Nat) (cs desc rest2 rawDest rest3 : List Char)
    (h1 : altScan cs = some (desc, '(' :: rest2))
    (h2 : destScan 1 rest2 = some (rawDest, rest3)) :
    mdSegGo (fuel + 1) ('!' :: '[' :: cs) = .link desc rawDest :: mdSegGo fuel rest3 := by
  simp [mdSegGo, h1, h2]

/-- Step equation: a position whose destination phase fails to close
makes the scanner emit all remaining text unmatched (the `break` at
LinkService.ts line 83). -/
theorem mdSegGo_step_break (fuel : Nat) (cs desc rest2 : List Char)
    (h1 : altScan cs = some (desc, '(' :: rest2))
    (h2 : destScan 1 rest2 = none) :
    mdSegGo (fuel + 1) ('!' :: '[' :: cs) = ('!' :: '[' :: cs).map .plain := by
  simp [mdSegGo, h1, h2]

/-- Step equation: a position whose alt phase fails (no closing `]`, or
the `]` not followed by `(`) is abandoned and the scan resumes one
character later. -/
theorem mdSegGo_step_resume (fuel : Nat) (cs : List Char)
    (h : altScan cs = none ∨
      ∃ d r, altScan cs = some (d, r) ∧ r.head? ≠ some '(') :
    mdSegGo (fuel + 1) ('!' :: '[' :: cs) = .plain '!' :: mdSegGo fuel ('[' :: cs) := by
  rcases h with h | ⟨d, r, h, hhead⟩
  · simp [mdSegGo, h]
  · cases r with
    | nil => simp [mdSegGo, h]
    | cons rh rt =>
      by_cases hph : rh = '('
      · subst hph; simp at hhead
      · simp [mdSegGo, h, hph]

/-- Emitting every markdown-scanner match as its own raw text reproduces
the input. -/
theorem mdSegGo_flatten : ∀ fuel cs, cs.length < fuel →
    mdRender mdOriginal (mdSegGo fuel cs) = cs := by
  intro fuel cs
  induction fuel, cs using mdSegGo.induct with
  | case1 cs => intro h; exact absurd h (Nat.not_lt_zero _)
  | case2 n => intro _; simp [mdSegGo, mdRender]
  | case3 fuel cs desc rest2 haa rawDest rest3 hdd ih =>
    intro hlen
    have hcs := altScan_eq cs desc ('(' :: rest2) haa
    have hr2 := destScan_eq 1 rest2 rawDest rest3 hdd
    have e1 := congrArg List.length hcs
    have e2 := congrArg List.length hr2
    simp [List.length_append] at e1 e2
    simp only [List.length_cons] at hlen
    rw [mdSegGo_step_link fuel cs desc rest2 rawDest rest3 haa hdd]
    simp only [mdRender]
    rw [ih (by omega)]
    subst hcs; subst hr2
    simp [mdOriginal]
  | case4 fuel cs desc rest2 haa hdd =>
    intro _
    rw [mdSegGo_step_break fuel cs desc rest2 haa hdd, mdRender_map_plain]
  | case5 fuel cs hno ih =>
    intro hlen
    simp only [List.length_cons] at hlen
    have hres : mdSegGo (fuel + 1) ('!' :: '[' :: cs) =
        .plain '!' :: mdSegGo fuel ('[' :: cs) := by
      apply mdSegGo_step_resume
      cases haa : altScan cs with
      | none => exact Or.inl rfl
      | some dr =>
        obtain ⟨d, r⟩ := dr
        refine Or.inr ⟨d, r, rfl, ?_⟩
        cases r with
        | nil => simp
        | cons rh rt =>
          by_cases hph : rh = '('
          · subst hph
            exact (hno d rt haa).elim
          · simp [hph]
    rw [hres]
    simp only [mdRender]
    rw [ih (by simp; omega)]
  | case6 fuel c cs hshape ih =>
    intro hlen
    simp only [List.length_cons] at hlen
    have hres : mdSegGo (fuel + 1) (c :: cs) = .plain c :: mdSegGo fuel cs := by
      simp only [mdSegGo]
    rw [hres]
    simp only [mdRender]
    rw [ih (by omega)]

theorem mdRender_congr {f g : List Char → List Char → List Char} :
    ∀ segs : List MdSegment,
    (∀ d r, MdSegment.link d r ∈ segs → f d r = g d r) →
    mdRender f segs = mdRender g segs := by
  intro segs
  induction segs with
  | nil => intro _; rfl
  | cons s rest ih =>
    intro h
    cases s with
    | plain c =>
      simp only [mdRender]
      rw [ih (fun d r hm => h d r (List.mem_cons_of_mem _ hm))]
    | link d r =>
      simp only [mdRender]
      rw [h d r (List.mem_cons_self _ _), ih (fun d r hm => h d r (List.mem_cons_of_mem _ hm))]

theorem mdSegments_flatten (cs : List Char) :
    mdRender mdOriginal (mdSegments cs) = cs :=
  mdSegGo_flatten (cs.length + 1) cs (Nat.lt_succ_self _)

/-- Step equation for the wiki pass: a full `![[inner]]` match. -/
theorem wikiSegGo_step_link (fuel : Nat) (cs : List Char) (a : Char) (inner rest2 : List Char)
    (htw : cs.takeWhile (fun c => c ≠ ']') = a :: inner)
    (hdw : cs.dropWhile (fun c => c ≠ ']') = ']' :: ']' :: rest2) :
    wikiSegGo (fuel + 1) ('!' :: '[' :: '[' :: cs) =
      .link (a :: inner) :: wikiSegGo fuel rest2 := by
  simp only [wikiSegGo]
  rw [htw, hdw]
  rfl

theorem wikiSegGo_flatten : ∀ fuel cs, cs.length < fuel →
    wikiRender wikiOriginal (wikiSegGo fuel cs) = cs := by
  intro fuel cs
  induction fuel, cs using wikiSegGo.induct with
  | case1 cs => intro h; exact absurd h (Nat.not_lt_zero _)
  | case2 n => intro _; simp [wikiSegGo, wikiRender]
  | case3 fuel cs a inner rest2 hdw htw ih =>
    intro hlen
    have hcs : cs = (a :: inner) ++ ']' :: ']' :: rest2 := by
      conv_lhs => rw [← List.takeWhile_append_dropWhile (p := fun c => c ≠ ']') (l := cs)]
      rw [htw, hdw]
    have e1 := congrArg List.length hcs
    simp [List.length_append] at e1
    simp only [List.length_cons] at hlen
    rw [wikiSegGo_step_link fuel cs a inner rest2 htw hdw]
    simp only [wikiRender]
    rw [ih (by omega)]
    subst hcs
    simp [wikiOriginal]
  | case4 fuel cs hno ih =>
    intro hlen
    simp only [List.length_cons] at hlen
    have hres : wikiSegGo (fuel + 1) ('!' :: '[' :: '[' :: cs) =
        .plain '!' :: wikiSegGo fuel ('[' :: '[' :: cs) := by
      simp only [wikiSegGo]
    rw [hres]
    simp only [wikiRender]
    rw [ih (by simp; omega)]
  | case5 fuel c cs hshape ih =>
    intro hlen
    simp only [List.length_cons] at hlen
    have hres : wikiSegGo (fuel + 1) (c :: cs) = .plain c :: wikiSegGo fuel cs := by
      simp only [wikiSegGo]
    rw [hres]
    simp only [wikiRender]
    rw [ih (by omega)]

theorem wikiRender_congr {f g : List Char → List Char} :
    ∀ segs : List WikiSegment,
    (∀ inner, WikiSegment.link inner ∈ segs → f inner = g inner) →
    wikiRender f segs = wikiRender g segs := by
  intro segs
  induction segs with
  | nil => intro _; rfl
  | cons s rest ih =>
    intro h
    cases s with
    | plain c =>
      simp only [wikiRender]
      rw [ih (fun i hm => h i (List.mem_cons_of_mem _ hm))]
    | link inner =>
      simp only [wikiRender]
      rw [h inner (List.mem_cons_self _ _), ih (fun i hm => h i (List.mem_cons_of_mem _ hm))]

theorem wikiSegments_flatten (cs : List Char) :
    wikiRender wikiOriginal (wikiSegments cs) = cs :=
  wikiSegGo_flatten (cs.length + 1) cs (Nat.lt_succ_self _)

/-- C2: for every document text in which no embed occurrence (of either
style) resolves to the target image, `updateLinks` (with any parameter
transform) returns the input text byte-identical; moreover each replacer
re-emits a match whose parsed target does not resolve as its original
raw text. -/
theorem claim2_updateLinks_identity :
    (∀ (resolve : String → Bool) (basename : String)
      (transform : List String → List String) (text : String),
      (∀ inner, WikiSegment.link inner ∈ wikiSegments text.data →
        resolve (parseLinkComponents ⟨inner⟩ none).path = false) →
      (∀ d r, MdSegment.link d r ∈ mdSegments text.data →
        resolve (parseLinkComponents ⟨d⟩
          (some ⟨(splitMarkdownLinkDestination r).1⟩)).path = false) →
      updateLinks resolve basename transform text = text) ∧
    (∀ (resolve : String → Bool) (transform : List String → List String)
      (inner : List Char),
      resolve (parseLinkComponents ⟨inner⟩ none).path = false →
      wikiReplacer resolve transform inner = wikiOriginal inner) ∧
    (∀ (resolve : String → Bool) (basename : String)
      (transform : List String → List String) (description rawDest : List Char),
      resolve (parseLinkComponents ⟨description⟩
        (some ⟨(splitMarkdownLinkDestination rawDest).1⟩)).path = false →
      mdReplacer resolve basename transform description rawDest =
        mdOriginal description rawDest) := by
  have hwiki : ∀ (resolve : String → Bool) (transform : List String → List String)
      (inner : List Char),
      resolve (parseLinkComponents ⟨inner⟩ none).path = false →
      wikiReplacer resolve transform inner = wikiOriginal inner := by
    intro resolve transform inner h
    simp [wikiReplacer, h]
  have hmd : ∀ (resolve : String → Bool) (basename : String)
      (transform : List String → List String) (description rawDest : List Char),
      resolve (parseLinkComponents ⟨description⟩
        (some ⟨(splitMarkdownLinkDestination rawDest).1⟩)).path = false →
      mdReplacer resolve basename transform description rawDest =
        mdOriginal description rawDest := by
    intro resolve basename transform description rawDest h
    simp [mdReplacer, h]
  refine ⟨?_, hwiki, hmd⟩
  intro resolve basename transform text hresw hresm
  show (⟨updateLinksL resolve basename transform text.data⟩ : String) = text
  unfold updateLinksL
  rw [wikiRender_congr (wikiSegments text.data)
      (fun inner hm => hwiki resolve transform inner (hresw inner hm)),
    wikiSegments_flatten]
  rw [mdRender_congr (mdSegments text.data)
      (fun d r hm => hmd resolve basename transform d r (hresm d r hm)),
    mdSegments_flatten]

/-- C2 witness: a concrete document with both embed styles is returned
byte-identical when nothing resolves. -/
theorem claim2_witness :
    updateLinks (fun _ => false) "img" (updateImageLinkWidthTransform 100)
      "a ![[x.png|3]] ![c|5](y.png) z" = "a ![[x.png|3]] ![c|5](y.png) z" :=
  claim2_updateLinks_identity.1 (fun _ => false) "img"
    (updateImageLinkWidthTransform 100) "a ![[x.png|3]] ![c|5](y.png) z"
    (fun _ _ => rfl) (fun _ _ _ => rfl)

/-! ### The parameter model: size tokens and last-wins scanning -/

theorem digitsToNat_foldl_ge : ∀ (ds : List Char) (n : Nat),
    n ≤ ds.foldl (fun n c => 10 * n + (c.toNat - 48)) n := by
  intro ds
  induction ds with
  | nil => simp
  | cons d ds ih =>
    intro n
    exact le_trans (by omega) (ih (10 * n + (d.toNat - 48)))

theorem digitsToNat_pos (c : Char) (ds : List Char) (hc : isNonZeroDigitCh c = true) :
    digitsToNat (c :: ds) ≠ 0 := by
  simp only [isNonZeroDigitCh, Bool.and_eq_true, decide_eq_true_eq] at hc
  have h1 : 1 ≤ 10 * 0 + (c.toNat - 48) := by omega
  have := digitsToNat_foldl_ge ds (10 * 0 + (c.toNat - 48))
  simp only [digitsToNat, List.foldl_cons]
  omega

/-- Every successful regex match starts with a nonzero digit, and the
first captured group is that digit followed by the maximal digit run. -/
theorem sizeRegex_shape : ∀ cs g1 g2, sizeRegexMatch cs = some (g1, g2) →
    ∃ c rest, cs = c :: rest ∧ isNonZeroDigitCh c = true ∧
      g1 = c :: rest.takeWhile isDigitCh := by
  intro cs g1 g2 h
  match cs with
  | [] => simp [sizeRegexMatch] at h
  | c :: rest =>
    by_cases hz : isNonZeroDigitCh c
    · refine ⟨c, rest, rfl, hz, ?_⟩
      simp only [sizeRegexMatch, if_pos hz] at h
      split at h <;> split at h <;> simp_all
    · simp [sizeRegexMatch, hz] at h

theorem parseSize_empty : parseObsidianImageSizeParam "" = none := rfl

/-- `findLastObsidianImageSizeParam` returning `none` means every
element fails to parse as a size. -/
theorem findLast_none : ∀ values, findLastObsidianImageSizeParam values = none →
    ∀ j, parseObsidianImageSizeParam (values.getD j "") = none := by
  intro values
  induction values with
  | nil => intro _ j; simp [List.getD_nil, parseSize_empty]
  | cons v rest ih =>
    intro h j
    have hsplit : findLastObsidianImageSizeParam rest = none ∧
        parseObsidianImageSizeParam v = none := by
      by_cases hr : findLastObsidianImageSizeParam rest = none
      · refine ⟨hr, ?_⟩
        cases hv : parseObsidianImageSizeParam v with
        | none => rfl
        | some p => simp [findLastObsidianImageSizeParam, hr, hv] at h
      · obtain ⟨f, hf⟩ := Option.ne_none_iff_exists'.mp hr
        simp [findLastObsidianImageSizeParam, hf] at h
    cases j with
    | zero => simpa using hsplit.2
    | succ j => simpa using ih hsplit.1 j

theorem findLast_none_of_forall : ∀ values,
    (∀ v ∈ values, parseObsidianImageSizeParam v = none) →
    findLastObsidianImageSizeParam values = none := by
  intro values
  induction values with
  | nil => intro _; rfl
  | cons v rest ih =>
    intro h
    have hr := ih (fun x hx => h x (List.mem_cons_of_mem _ hx))
    have hv := h v (List.mem_cons_self _ _)
    simp [findLastObsidianImageSizeParam, hr, hv]

/-- The rightmost-match specification of `findLastObsidianImageSizeParam`. -/
theorem findLast_spec : ∀ values f, findLastObsidianImageSizeParam values = some f →
    f.index < values.length ∧
    parseObsidianImageSizeParam (values.getD f.index "") = some ⟨f.width, f.height⟩ ∧
    ∀ j, f.index < j → parseObsidianImageSizeParam (values.getD j "") = none := by
  intro values
  induction values with
  | nil => intro f h; simp [findLastObsidianImageSizeParam] at h
  | cons v rest ih =>
    intro f h
    cases hr : findLastObsidianImageSizeParam rest with
    | some g =>
      have hf : f = ⟨g.index + 1, g.width, g.height⟩ := by
        simp [findLastObsidianImageSizeParam, hr] at h
        cases h; rfl
      obtain ⟨h1, h2, h3⟩ := ih g hr
      subst hf
      refine ⟨by simpa using h1, by simpa using h2, ?_⟩
      intro j hj
      simp only [] at hj
      cases j with
      | zero => simp at hj
      | succ j => simpa using h3 j (by simp at hj; omega)
    | none =>
      cases hv : parseObsidianImageSizeParam v with
      | none => simp [findLastObsidianImageSizeParam, hr, hv] at h
      | some p =>
        have hf : f = ⟨0, p.width, p.height⟩ := by
          simp [findLastObsidianImageSizeParam, hr, hv] at h
          cases h; rfl
        subst hf
        refine ⟨by simp, by simpa using hv, ?_⟩
        intro j hj
        cases j with
        | zero => simp at hj
        | succ j => simpa using findLast_none rest hr j

theorem dropWhile_append_singleton {p : Char → Bool} (c : Char) (hc : p c = false) :
    ∀ xs : List Char, (xs ++ [c]).dropWhile p = xs.dropWhile p ++ [c] := by
  intro xs
  induction xs with
  | nil => simp [List.dropWhile_cons, hc]
  | cons x xs ih =>
    by_cases hx : p x
    · simp [List.dropWhile_cons, hx, ih]
    · simp [List.dropWhile_cons, hx]

/-- Trimming a string whose first character is not whitespace keeps that
character in front. -/
theorem jsTrim_cons_not_ws (c : Char) (ds : List Char) (hc : jsIsWhitespace c = false) :
    jsTrim (c :: ds) = c :: (ds.reverse.dropWhile jsIsWhitespace).reverse := by
  unfold jsTrim
  rw [List.dropWhile_cons]
  simp only [hc, if_neg Bool.false_ne_true, List.reverse_cons]
  rw [dropWhile_append_singleton c hc (ds.reverse)]
  simp

/-- C5 counterexample: the parser trims its input first, so `" 300"` is
accepted even though the anchored grammar
`^[1-9]\d*(x[1-9]\d*)?(px)?$` does not match the string itself. -/
theorem claim5_counterexample :
    parseObsidianImageSizeParam " 300" = some ⟨300, none⟩ ∧
    sizeRegexMatch " 300".data = none := by
  constructor
  · rfl
  · rfl

/-- C5 (amended): `parseObsidianImageSizeParam` accepts exactly the
strings whose whitespace-trim matches the size-token grammar; it accepts
"300", "300x200" and "300px" with the stated width and height, and
rejects "0", "-5", "300xpx", "", "abc" and every token with a leading
zero. -/
theorem claim5_amended :
    (∀ s : String,
      (parseObsidianImageSizeParam s).isSome = (sizeRegexMatch (jsTrim s.data)).isSome) ∧
    parseObsidianImageSizeParam "300" = some ⟨300, none⟩ ∧
    parseObsidianImageSizeParam "300x200" = some ⟨300, some 200⟩ ∧
    parseObsidianImageSizeParam "300px" = some ⟨300, none⟩ ∧
    parseObsidianImageSizeParam "0" = none ∧
    parseObsidianImageSizeParam "-5" = none ∧
    parseObsidianImageSizeParam "300xpx" = none ∧
    parseObsidianImageSizeParam "" = none ∧
    parseObsidianImageSizeParam "abc" = none ∧
    (∀ ds : List Char, parseObsidianImageSizeParam ⟨'0' :: ds⟩ = none) := by
  refine ⟨?_, rfl, rfl, rfl, rfl, rfl, rfl, rfl, rfl, ?_⟩
  · intro s
    unfold parseObsidianImageSizeParam
    by_cases ht : jsTrim s.data = []
    · simp [ht, sizeRegexMatch]
    · simp only [ht, if_neg, ite_false]
      cases hm : sizeRegexMatch (jsTrim s.data) with
      | none => simp
      | some gg =>
        obtain ⟨g1, g2⟩ := gg
        obtain ⟨c, rest, _, hc, hg1⟩ := sizeRegex_shape _ g1 g2 hm
        have hw : digitsToNat g1 ≠ 0 := hg1 ▸ digitsToNat_pos c _ hc
        simp only [hw, ite_false]
        cases g2 with
        | none => simp
        | some h => simp only [Option.isSome_some]; split <;> simp
  · intro ds
    unfold parseObsidianImageSizeParam
    rw [jsTrim_cons_not_ws '0' ds (by decide)]
    simp [sizeRegexMatch, isNonZeroDigitCh]

/-- C6: `findLastObsidianImageSizeParam` scans from the end and returns
the rightmost size-shaped token with its index and width: the returned
index is in bounds, parses to the returned width and height, and every
later position fails to parse; on `["left", "300", "400"]` it returns
index 2 with width 400. -/
theorem claim6_findLast_rightmost :
    (∀ values f, findLastObsidianImageSizeParam values = some f →
      f.index < values.length ∧
      parseObsidianImageSizeParam (values.getD f.index "") = some ⟨f.width, f.height⟩ ∧
      ∀ j, f.index < j → parseObsidianImageSizeParam (values.getD j "") = none) ∧
    findLastObsidianImageSizeParam ["left", "300", "400"] = some ⟨2, 400, none⟩ :=
  ⟨findLast_spec, rfl⟩

/-- C6 witness at the concrete list of the claim. -/
theorem claim6_witness :
    parseObsidianImageSizeParam (["left", "300", "400"].getD 2 "") = some ⟨400, none⟩ ∧
    parseObsidianImageSizeParam (["left", "300", "400"].getD 3 "") = none :=
  ⟨(claim6_findLast_rightmost.1 ["left", "300", "400"] ⟨2, 400, none⟩ rfl).2.1,
   (claim6_findLast_rightmost.1 ["left", "300", "400"] ⟨2, 400, none⟩ rfl).2.2 3
     (by decide)⟩

/-- C7: the set-width transform replaces only the slot of the rightmost
size-shaped parameter with the plain new width (so any `xHeight` suffix
is dropped with the old token), keeping every other parameter's content
and position, and appends the width when no size slot exists; in
particular `![[photo.jpg]]` with set-width-300 becomes
`![[photo.jpg|300]]`. -/
theorem claim7_applyWidth :
    (∀ (params : List String) (w : Nat) f,
      findLastObsidianImageSizeParam params = some f →
      parseObsidianImageSizeParam (params.getD f.index "") = some ⟨f.width, f.height⟩ ∧
      (∀ j, f.index < j → parseObsidianImageSizeParam (params.getD j "") = none) ∧
      updateImageLinkWidthTransform w params = params.set f.index (toString w) ∧
      (updateImageLinkWidthTransform w params).getD f.index "" = toString w ∧
      ∀ j, j ≠ f.index →
        (updateImageLinkWidthTransform w params).getD j "" = params.getD j "") ∧
    (∀ (params : List String) (w : Nat),
      findLastObsidianImageSizeParam params = none →
      updateImageLinkWidthTransform w params = params ++ [toString w]) ∧
    updateLinks (fun p => p == "photo.jpg") "photo" (updateImageLinkWidthTransform 300)
      "![[photo.jpg]]" = "![[photo.jpg|300]]" := by
  refine ⟨?_, ?_, rfl⟩
  · intro params w f hf
    have hidx := (findLast_spec params f hf).1
    have hset : updateImageLinkWidthTransform w params = params.set f.index (toString w) := by
      unfold updateImageLinkWidthTransform
      rw [hf, List.set_eq_take_cons_drop _ hidx]
    refine ⟨(findLast_spec params f hf).2.1, (findLast_spec params f hf).2.2, hset, ?_, ?_⟩
    · rw [hset, List.getD_eq_getElem?_getD, List.getElem?_set_self hidx]
      rfl
    · intro j hj
      rw [hset, List.getD_eq_getElem?_getD, List.getElem?_set_ne (Ne.symm hj),
        ← List.getD_eq_getElem?_getD]
  · intro params w hf
    unfold updateImageLinkWidthTransform
    rw [hf]

/-- C7 witness: replacement, preservation and append at concrete lists. -/
theorem claim7_witness :
    updateImageLinkWidthTransform 75 ["50"] = ["50"].set 0 (toString 75) ∧
    (updateImageLinkWidthTransform 75 ["left", "300"]).getD 0 "" = ["left", "300"].getD 0 "" ∧
    updateImageLinkWidthTransform 300 ([] : List String) = [] ++ [toString 300] :=
  ⟨(claim7_applyWidth.1 ["50"] 75 ⟨0, 50, none⟩ rfl).2.2.1,
   (claim7_applyWidth.1 ["left", "300"] 75 ⟨1, 300, none⟩ rfl).2.2.2.2 0 (by decide),
   claim7_applyWidth.2.1 [] 300 rfl⟩

/-- C8 counterexample: remove-width is not idempotent on every parameter
list: on `["300", "400"]` the first application deletes "400", the
second deletes "300". -/
theorem claim8_counterexample :
    removeImageWidthTransform ["300", "400"] = ["300"] ∧
    removeImageWidthTransform (removeImageWidthTransform ["300", "400"]) = [] ∧
    removeImageWidthTransform (removeImageWidthTransform ["300", "400"]) ≠
      removeImageWidthTransform ["300", "400"] := by
  refine ⟨rfl, rfl, by decide⟩

/-- C8 (amended): remove-width returns the list unchanged when no
size-shaped parameter exists, otherwise deletes exactly the rightmost
size-shaped slot (it equals `eraseIdx` at the found index, leaving all
other parameters in place); it is idempotent on every list containing at
most one size-shaped token. -/
theorem claim8_amended :
    (∀ params : List String, findLastObsidianImageSizeParam params = none →
      removeImageWidthTransform params = params) ∧
    (∀ (params : List String) f, findLastObsidianImageSizeParam params = some f →
      parseObsidianImageSizeParam (params.getD f.index "") = some ⟨f.width, f.height⟩ ∧
      (∀ j, f.index < j → parseObsidianImageSizeParam (params.getD j "") = none) ∧
      removeImageWidthTransform params =
        params.take f.index ++ params.drop (f.index + 1) ∧
      removeImageWidthTransform params = params.eraseIdx f.index) ∧
    (∀ params : List String,
      params.countP (fun v => (parseObsidianImageSizeParam v).isSome) ≤ 1 →
      removeImageWidthTransform (removeImageWidthTransform params) =
        removeImageWidthTransform params) := by
  have hnone : ∀ params : List String, findLastObsidianImageSizeParam params = none →
      removeImageWidthTransform params = params := by
    intro params h
    unfold removeImageWidthTransform
    rw [h]
  have hsome : ∀ (params : List String) f, findLastObsidianImageSizeParam params = some f →
      removeImageWidthTransform params =
        params.take f.index ++ params.drop (f.index + 1) := by
    intro params f h
    unfold removeImageWidthTransform
    rw [h]
  refine ⟨hnone, fun params f h => ⟨(findLast_spec params f h).2.1,
    (findLast_spec params f h).2.2, hsome params f h, ?_⟩, ?_⟩
  · rw [hsome params f h, List.eraseIdx_eq_take_drop_succ]
  · intro params hcount
    cases hf : findLastObsidianImageSizeParam params with
    | none => rw [hnone params hf, hnone params hf]
    | some f =>
      set p := fun v => (parseObsidianImageSizeParam v).isSome with hp
      have hidx := (findLast_spec params f hf).1
      have hparse := (findLast_spec params f hf).2.1
      have hElem : params.getD f.index "" = params[f.index] := by
        rw [List.getD_eq_getElem?_getD, List.getElem?_eq_getElem hidx]
        rfl
      have hsplitp : params.take f.index ++ params[f.index] :: params.drop (f.index + 1)
          = params := by
        rw [← List.drop_eq_getElem_cons hidx]
        exact List.take_append_drop _ _
      have hpt : p params[f.index] = true := by
        simp only [hp]
        rw [← hElem, hparse]
        rfl
      have hcz : params.countP p =
          (params.take f.index).countP p + (params.drop (f.index + 1)).countP p + 1 := by
        conv_lhs => rw [← hsplitp]
        rw [List.countP_append, List.countP_cons, hpt]
        simp only [if_true]
        omega
      have hz1 : (params.take f.index).countP p = 0 ∧
          (params.drop (f.index + 1)).countP p = 0 := by omega
      have hall : ∀ v ∈ params.take f.index ++ params.drop (f.index + 1),
          parseObsidianImageSizeParam v = none := by
        intro v hv
        rcases List.mem_append.mp hv with hv | hv
        · have := List.countP_eq_zero.mp hz1.1 v hv
          simpa [hp, Option.not_isSome_iff_eq_none] using this
        · have := List.countP_eq_zero.mp hz1.2 v hv
          simpa [hp, Option.not_isSome_iff_eq_none] using this
      rw [hsome params f hf]
      exact hnone _ (findLast_none_of_forall _ hall)

/-- C8 witness: identity, single-slot deletion and idempotence at
concrete lists. -/
theorem claim8_witness :
    removeImageWidthTransform ["left"] = ["left"] ∧
    removeImageWidthTransform ["left", "300"] = ["left", "300"].eraseIdx 1 ∧
    removeImageWidthTransform (removeImageWidthTransform ["left", "300"]) =
      removeImageWidthTransform ["left", "300"] :=
  ⟨claim8_amended.1 ["left"] rfl,
   (claim8_amended.2.1 ["left", "300"] ⟨1, 300, none⟩ rfl).2.2.2,
   claim8_amended.2.2 ["left", "300"] (by decide)⟩

/-! ### C1: fragment position after a width update on a wiki link -/

/-- C1 counterexample: on `![[photo.jpg#heading|50]]` the set-width-75
update produces `![[photo.jpg|75#heading]]` — `buildLinkPath` emits
path, then parameters, then hash — not the claimed
`![[photo.jpg#heading|75]]`. -/
theorem claim1_counterexample :
    updateLinks (fun p => p == "photo.jpg") "photo" (updateImageLinkWidthTransform 75)
      "![[photo.jpg#heading|50]]" = "![[photo.jpg|75#heading]]" ∧
    ("![[photo.jpg|75#heading]]" : String) ≠ "![[photo.jpg#heading|75]]" :=
  ⟨rfl, by decide⟩

/-- C1 (amended): parsing splits the heading off the first piped segment
(path `photo.jpg`, hash `#heading`, params `["50"]`), the transform sets
the width to 75, and rebuilding reattaches the fragment at the end,
after the parameters, so the output is exactly
`![[photo.jpg|75#heading]]` (and never `![[photo.jpg#heading|75]]`). -/
theorem claim1_amended :
    parseLinkComponents "photo.jpg#heading|50" none =
      ⟨"photo.jpg", "#heading", ["50"], true⟩ ∧
    updateImageLinkWidthTransform 75 ["50"] = ["75"] ∧
    buildLinkPath ⟨"photo.jpg", "#heading", ["75"], true⟩ false = "photo.jpg|75#heading" ∧
    updateLinks (fun p => p == "photo.jpg") "photo" (updateImageLinkWidthTransform 75)
      "![[photo.jpg#heading|50]]" = "![[photo.jpg|75#heading]]" :=
  ⟨rfl, rfl, rfl, rfl⟩

/-! ### C3: recovery behaviour of the markdown scanner -/

theorem scan_of_map_plain : ∀ l : List Char,
    ((l.map MdSegment.plain).filterMap fun s =>
      match s with
      | MdSegment.link d r => some (d, r)
      | MdSegment.plain _ => none) = [] := by
  intro l
  induction l with
  | nil => rfl
  | cons c cs ih => simp [ih]

/-- A candidate position whose alt phase fails resumes one character
later, stated at the `mdSegments` level. -/
theorem mdSegments_cons_bang (cs : List Char)
    (h : altScan cs = none ∨ ∃ d r, altScan cs = some (d, r) ∧ r.head? ≠ some '(') :
    mdSegments ('!' :: '[' :: cs) = .plain '!' :: mdSegments ('[' :: cs) := by
  unfold mdSegments
  rw [show ('!' :: '[' :: cs).length + 1 = (('[' :: cs).length + 1) + 1 from by simp]
  exact mdSegGo_step_resume _ _ h

/-- C3 counterexample: in `![a](( ![b](c.png)` the first candidate's
caption closes but its destination never does, and the scanner's `break`
suppresses the well-formed embed `![b](c.png)` occurring later — the
scan returns no matches, although the same embed is matched in
isolation. -/
theorem claim3_counterexample :
    scanMarkdownImageLinks "![a](( ![b](c.png)".data = [] ∧
    scanMarkdownImageLinks "![b](c.png)".data = [("b".data, "c.png".data)] :=
  ⟨rfl, rfl⟩

/-- C3 (amended): when the caption phase fails to close (or its `]` is
not followed by `(`), the scanner abandons only that position and
resumes one character later; but when the parenthesized-destination
phase fails to close, the scanner stops entirely and nothing in the
remaining text is matched. -/
theorem claim3_amended :
    (∀ cs : List Char, altScan cs = none →
      mdSegments ('!' :: '[' :: cs) = .plain '!' :: mdSegments ('[' :: cs)) ∧
    (∀ cs d r : List Char, altScan cs = some (d, r) → r.head? ≠ some '(' →
      mdSegments ('!' :: '[' :: cs) = .plain '!' :: mdSegments ('[' :: cs)) ∧
    (∀ cs d rest2 : List Char, altScan cs = some (d, '(' :: rest2) →
      destScan 1 rest2 = none →
      scanMarkdownImageLinks ('!' :: '[' :: cs) = []) := by
  refine ⟨?_, ?_, ?_⟩
  · intro cs h
    exact mdSegments_cons_bang cs (Or.inl h)
  · intro cs d r h hh
    exact mdSegments_cons_bang cs (Or.inr ⟨d, r, h, hh⟩)
  · intro cs d rest2 h1 h2
    unfold scanMarkdownImageLinks mdSegments
    rw [show ('!' :: '[' :: cs).length + 1 = (cs.length + 2) + 1 from by simp]
    rw [mdSegGo_step_break _ _ _ _ h1 h2]
    exact scan_of_map_plain _

/-- C3 witness: both recovery behaviours at concrete inputs. -/
theorem claim3_witness :
    mdSegments ('!' :: '[' :: "a] x".data) = .plain '!' :: mdSegments ('[' :: "a] x".data) ∧
    scanMarkdownImageLinks ('!' :: '[' :: "a](( ![b](c.png)".data) = [] :=
  ⟨claim3_amended.2.1 "a] x".data "a".data " x".data rfl (by decide),
   claim3_amended.2.2 "a](( ![b](c.png)".data "a".data "( ![b](c.png)".data rfl rfl⟩

/-! ### C4, C10: hash splitting and safe decoding of markdown destinations -/

theorem takeWhile_append_all {p : Char → Bool} :
    ∀ xs ys : List Char, (∀ x ∈ xs, p x = true) →
    (xs ++ ys).takeWhile p = xs ++ ys.takeWhile p := by
  intro xs ys h
  induction xs with
  | nil => simp
  | cons x xs ih =>
    have hx := h x (List.mem_cons_self _ _)
    simp only [List.cons_append, List.takeWhile_cons, hx, if_pos]
    rw [ih (fun y hy => h y (List.mem_cons_of_mem _ hy))]

theorem dropWhile_append_all {p : Char → Bool} :
    ∀ xs ys : List Char, (∀ x ∈ xs, p x = true) →
    (xs ++ ys).dropWhile p = ys.dropWhile p := by
  intro xs ys h
  induction xs with
  | nil => simp
  | cons x xs ih =>
    have hx := h x (List.mem_cons_self _ _)
    simp only [List.cons_append, List.dropWhile_cons, hx, if_pos]
    exact ih (fun y hy => h y (List.mem_cons_of_mem _ hy))

theorem neHash_decide (l : List Char) (h : ∀ x ∈ l, x ≠ '#') :
    ∀ x ∈ l, (fun c => decide (c ≠ '#')) x = true := by
  intro x hx
  simp [h x hx]

theorem splitHash_spec_none (a : List Char) (ha : ∀ x ∈ a, x ≠ '#') :
    splitHashLimit2 a = (a, none) := by
  unfold splitHashLimit2
  have ht := takeWhile_append_all a [] (neHash_decide a ha)
  have hd := dropWhile_append_all a [] (neHash_decide a ha)
  simp only [List.append_nil] at ht hd
  rw [ht, hd]
  simp

theorem splitHash_spec_cons (a : List Char) (rest : List Char) (ha : ∀ x ∈ a, x ≠ '#') :
    splitHashLimit2 (a ++ '#' :: rest) =
      (a, some (rest.takeWhile (fun c => c ≠ '#'))) := by
  unfold splitHashLimit2
  rw [takeWhile_append_all a ('#' :: rest) (neHash_decide a ha),
    dropWhile_append_all a ('#' :: rest) (neHash_decide a ha)]
  simp [List.takeWhile_cons, List.dropWhile_cons]

theorem takeWhile_neHash_self (b : List Char) (hb : ∀ x ∈ b, x ≠ '#') :
    b.takeWhile (fun c => c ≠ '#') = b := by
  have := takeWhile_append_all b [] (neHash_decide b hb)
  simpa using this

theorem takeWhile_neHash_fst (b c : List Char) (hb : ∀ x ∈ b, x ≠ '#') :
    (b ++ '#' :: c).takeWhile (fun c => c ≠ '#') = b := by
  rw [takeWhile_append_all b ('#' :: c) (neHash_decide b hb)]
  simp [List.takeWhile_cons]

/-- The `.path` of a markdown-style parse with a truthy (nonempty)
destination. -/
theorem parseLink_md_path (mp lp : String) (hlp : lp ≠ "") :
    (parseLinkComponents mp (some lp)).path =
      safeDecodeURIComponent ⟨(splitHashLimit2 lp.data).1⟩ := by
  simp [parseLinkComponents, hlp]

/-- The `.hash` of a markdown-style parse with a truthy (nonempty)
destination. -/
theorem parseLink_md_hash (mp lp : String) (hlp : lp ≠ "") :
    (parseLinkComponents mp (some lp)).hash =
      ⟨match (splitHashLimit2 lp.data).2 with
       | some h => if h ≠ [] then '#' :: h else []
       | none => []⟩ := by
  simp [parseLinkComponents, hlp]

/-- C4 counterexample: the code uses JS `split('#', 2)`, whose limit
drops everything from the second `#` on, so the fragment of `a#b#c` is
`#b`, not the claimed entire remainder `#b#c`. -/
theorem claim4_counterexample :
    (parseLinkComponents "alt" (some "a#b#c")).hash = "#b" ∧
    (parseLinkComponents "alt" (some "a#b#c")).path = "a" ∧
    ("#b" : String) ≠ "#b#c" :=
  ⟨rfl, rfl, by decide⟩

/-- A string whose character data contains an element is nonempty. -/
theorem ne_empty_of_data_cons (s : String) (l1 : List Char) (c : Char) (l2 : List Char)
    (h : s.data = l1 ++ c :: l2) : s ≠ "" := by
  intro he
  subst he
  rw [show ("" : String).data = ([] : List Char) from rfl] at h
  simp at h

/-- C4 (amended): a truthy (nonempty) markdown destination is split at
its first `#`; the path is the portion before it, subsequently
percent-decoded; the fragment is `#` followed by the segment strictly
between the first `#` and the next `#` (or the end), kept literal and
never decoded — any text from a second `#` on is dropped — and an empty
segment yields an empty fragment.  The empty destination is falsy in JS
and is parsed wiki-style from the description instead. -/
theorem claim4_amended :
    (∀ mp lp : String, lp ≠ "" → ¬ '#' ∈ lp.data →
      (parseLinkComponents mp (some lp)).path = safeDecodeURIComponent lp ∧
      (parseLinkComponents mp (some lp)).hash = "") ∧
    (∀ mp a b : String, ¬ '#' ∈ a.data → ¬ '#' ∈ b.data →
      (parseLinkComponents mp (some (a ++ "#" ++ b))).path = safeDecodeURIComponent a ∧
      (parseLinkComponents mp (some (a ++ "#" ++ b))).hash =
        (if b = "" then "" else "#" ++ b)) ∧
    (∀ mp a b c : String, ¬ '#' ∈ a.data → ¬ '#' ∈ b.data →
      (parseLinkComponents mp (some (a ++ "#" ++ b ++ "#" ++ c))).path =
        safeDecodeURIComponent a ∧
      (parseLinkComponents mp (some (a ++ "#" ++ b ++ "#" ++ c))).hash =
        (if b = "" then "" else "#" ++ b)) ∧
    (∀ mp : String, parseLinkComponents mp (some "") = parseLinkComponents mp none) := by
  have hashOf : ∀ (b : String), (⟨if b.data ≠ [] then '#' :: b.data else []⟩ : String) =
      (if b = "" then "" else "#" ++ b) := by
    intro b
    by_cases hb : b = ""
    · subst hb; simp
    · have hbd : b.data ≠ [] := by
        intro hh
        apply hb
        cases b
        simp_all
      rw [if_pos hbd, if_neg hb]
      rfl
  refine ⟨?_, ?_, ?_, fun mp => rfl⟩
  · intro mp lp hlp h
    have ha : ∀ x ∈ lp.data, x ≠ '#' := fun x hx he => h (he ▸ hx)
    have hs := splitHash_spec_none lp.data ha
    refine ⟨?_, ?_⟩
    · rw [parseLink_md_path mp lp hlp, hs]
    · rw [parseLink_md_hash mp lp hlp, hs]
  · intro mp a b h1 h2
    have ha : ∀ x ∈ a.data, x ≠ '#' := fun x hx he => h1 (he ▸ hx)
    have hb : ∀ x ∈ b.data, x ≠ '#' := fun x hx he => h2 (he ▸ hx)
    have hd : (a ++ "#" ++ b).data = a.data ++ '#' :: b.data := by
      simp [String.data_append]
    have hlp : (a ++ "#" ++ b) ≠ "" := ne_empty_of_data_cons _ a.data '#' b.data hd
    have hs : splitHashLimit2 (a ++ "#" ++ b).data = (a.data, some b.data) := by
      rw [hd, splitHash_spec_cons a.data b.data ha, takeWhile_neHash_self b.data hb]
    refine ⟨?_, ?_⟩
    · rw [parseLink_md_path _ _ hlp, hs]
    · rw [parseLink_md_hash _ _ hlp, hs]
      exact hashOf b
  · intro mp a b c h1 h2
    have ha : ∀ x ∈ a.data, x ≠ '#' := fun x hx he => h1 (he ▸ hx)
    have hb : ∀ x ∈ b.data, x ≠ '#' := fun x hx he => h2 (he ▸ hx)
    have hd : (a ++ "#" ++ b ++ "#" ++ c).data =
        a.data ++ '#' :: (b.data ++ '#' :: c.data) := by
      simp [String.data_append]
    have hlp : (a ++ "#" ++ b ++ "#" ++ c) ≠ "" :=
      ne_empty_of_data_cons _ a.data '#' (b.data ++ '#' :: c.data) hd
    have hs : splitHashLimit2 (a ++ "#" ++ b ++ "#" ++ c).data = (a.data, some b.data) := by
      rw [hd, splitHash_spec_cons a.data _ ha, takeWhile_neHash_fst b.data c.data hb]
    refine ⟨?_, ?_⟩
    · rw [parseLink_md_path _ _ hlp, hs]
    · rw [parseLink_md_hash _ _ hlp, hs]
      exact hashOf b

/-- C4 witness: concrete two-hash destination with a percent-encoded
path, a hash-free destination, and the falsy empty destination. -/
theorem claim4_witness :
    (parseLinkComponents "alt" (some ("img%20name" ++ "#" ++ "sec" ++ "#" ++ "x#y"))).path =
      "img name" ∧
    (parseLinkComponents "alt" (some ("img%20name" ++ "#" ++ "sec" ++ "#" ++ "x#y"))).hash =
      "#sec" ∧
    (parseLinkComponents "alt" (some "img%20x.png")).hash = "" ∧
    parseLinkComponents "photo.jpg" (some "") = parseLinkComponents "photo.jpg" none := by
  have h := claim4_amended.2.2.1 "alt" "img%20name" "sec" "x#y" (by decide) (by decide)
  have h1 := claim4_amended.1 "alt" "img%20x.png" (by decide) (by decide)
  refine ⟨?_, ?_, h1.2, claim4_amended.2.2.2 "photo.jpg"⟩
  · rw [h.1]; rfl
  · rw [h.2]; decide

/-- C10: percent-decoding of a markdown destination's path never throws:
the decoder is a total function into `Option`; whenever decoding the
pre-hash portion of the destination fails, the raw undecoded path string
is used unchanged as the link's path; for a truthy (nonempty)
destination a successful decode is used as the path; and the empty
destination is falsy in JS, parsed wiki-style from the description with
no decoding at all. -/
theorem claim10_safe_decode :
    (∀ mp lp : String,
      decodeURIComponentE ⟨(splitHashLimit2 lp.data).1⟩ = none →
      (parseLinkComponents mp (some lp)).path = ⟨(splitHashLimit2 lp.data).1⟩) ∧
    (∀ mp lp d : String, lp ≠ "" →
      decodeURIComponentE ⟨(splitHashLimit2 lp.data).1⟩ = some d →
      (parseLinkComponents mp (some lp)).path = d) ∧
    (∀ mp : String, parseLinkComponents mp (some "") = parseLinkComponents mp none) := by
  refine ⟨?_, ?_, fun mp => rfl⟩
  · intro mp lp h
    by_cases hlp : lp = ""
    · subst hlp
      exact absurd h (by decide)
    · rw [parseLink_md_path mp lp hlp]
      unfold safeDecodeURIComponent
      rw [h]
      rfl
  · intro mp lp d hlp h
    rw [parseLink_md_path mp lp hlp]
    unfold safeDecodeURIComponent
    rw [h]
    rfl

/-- C10 witness: a truncated escape falls back to the raw path; a valid
escape decodes; the empty destination takes the wiki branch. -/
theorem claim10_witness :
    (parseLinkComponents "alt" (some "oops%#frag")).path = "oops%" ∧
    (parseLinkComponents "alt" (some "a%20b#frag")).path = "a b" ∧
    parseLinkComponents "alt" (some "") = parseLinkComponents "alt" none :=
  ⟨(claim10_safe_decode.1 "alt" "oops%#frag" rfl).trans rfl,
   claim10_safe_decode.2.1 "alt" "a%20b#frag" "a b" (by decide) rfl,
   claim10_safe_decode.2.2 "alt"⟩

/-! ### C9: frontmatter splitting and re-prepending -/

theorem fmOpen_eq : ∀ data o r, fmOpen data = some (o, r) → data = o ++ r := by
  intro data o r h
  unfold fmOpen at h
  split at h <;> simp at h <;> (obtain ⟨rfl, rfl⟩ := h) <;> simp

theorem fmCloseHere_eq : ∀ cs d r, fmCloseHere cs = some (d, r) → cs = d ++ r := by
  intro cs d r h
  unfold fmCloseHere at h
  split at h
  · split at h <;> simp at h <;> (obtain ⟨rfl, rfl⟩ := h) <;> simp
  · simp at h

theorem fmScanClose_eq : ∀ cs d r, fmScanClose cs = some (d, r) → cs = d ++ r := by
  intro cs
  induction cs with
  | nil => intro d r h; simp [fmScanClose] at h
  | cons c cs ih =>
    intro d r h
    unfold fmScanClose at h
    cases hc : fmCloseHere (c :: cs) with
    | some dr =>
      obtain ⟨cl, rr⟩ := dr
      rw [hc] at h
      simp at h
      obtain ⟨rfl, rfl⟩ := h
      exact fmCloseHere_eq _ _ _ hc
    | none =>
      rw [hc] at h
      cases hs : fmScanClose cs with
      | none => rw [hs] at h; simp at h
      | some dr2 =>
        obtain ⟨d2, r2⟩ := dr2
        rw [hs] at h
        simp at h
        obtain ⟨rfl, rfl⟩ := h
        simp [ih d2 r2 hs]

theorem splitFrontmatter_append : ∀ data : List Char,
    (splitFrontmatter data).1 ++ (splitFrontmatter data).2 = data := by
  intro data
  unfold splitFrontmatter
  cases ho : fmOpen data with
  | none => simp
  | some io =>
    obtain ⟨o, r⟩ := io
    cases hc : fmScanClose r with
    | none => simp only [hc]; simp
    | some bc =>
      obtain ⟨body, content⟩ := bc
      simp only [hc]
      rw [fmOpen_eq data o r ho, fmScanClose_eq r body content hc]
      simp [List.append_assoc]

/-- C9: the rewrite pipeline splits off a leading complete frontmatter
block, rewrites only the content, and re-prepends the block
byte-identical (the returned text is always frontmatter ++ rewritten
content); when the opening delimiter is present but no closing delimiter
exists, the frontmatter is empty and the entire text is content;
Scenario F holds concretely. -/
theorem claim9_frontmatter :
    (∀ data : List Char, (splitFrontmatter data).1 ++ (splitFrontmatter data).2 = data) ∧
    (∀ (resolve : String → Bool) (basename : String)
      (transform : List String → List String) (data : List Char),
      updateImageLinksData resolve basename transform data =
        (splitFrontmatter data).1 ++
          updateLinksL resolve basename transform (splitFrontmatter data).2) ∧
    (∀ data opener rest : List Char, fmOpen data = some (opener, rest) →
      fmScanClose rest = none → splitFrontmatter data = ([], data)) ∧
    updateImageLinksData (fun p => p == "photo.jpg") "photo"
      (updateImageLinkWidthTransform 100) "---\ntitle: x\n---\n![[photo.jpg|50]]".data =
      "---\ntitle: x\n---\n![[photo.jpg|100]]".data := by
  refine ⟨splitFrontmatter_append, ?_, ?_, rfl⟩
  · intro resolve basename transform data
    show (if updateLinksL resolve basename transform (splitFrontmatter data).2 =
          (splitFrontmatter data).2 then data
        else if (splitFrontmatter data).1 ≠ [] then
          (splitFrontmatter data).1 ++
            updateLinksL resolve basename transform (splitFrontmatter data).2
        else updateLinksL resolve basename transform (splitFrontmatter data).2) = _
    by_cases heq : updateLinksL resolve basename transform (splitFrontmatter data).2 =
        (splitFrontmatter data).2
    · rw [if_pos heq, heq, splitFrontmatter_append]
    · rw [if_neg heq]
      by_cases hfm : (splitFrontmatter data).1 ≠ []
      · rw [if_pos hfm]
      · push_neg at hfm
        rw [if_neg (by simp [hfm]), hfm]
        simp
  · intro data opener rest ho hc
    unfold splitFrontmatter
    rw [ho]
    simp [hc]

/-- C9 witness: missing closing delimiter leaves the whole text as
content; the pipeline output is frontmatter plus rewritten content. -/
theorem claim9_witness :
    splitFrontmatter "---\nx".data = ([], "---\nx".data) ∧
    updateImageLinksData (fun _ => false) "b" (updateImageLinkWidthTransform 1) "hi".data =
      (splitFrontmatter "hi".data).1 ++
        updateLinksL (fun _ => false) "b" (updateImageLinkWidthTransform 1)
          (splitFrontmatter "hi".data).2 :=
  ⟨claim9_frontmatter.2.2.1 "---\nx".data ['-', '-', '-', '\n'] ['x'] rfl rfl,
   claim9_frontmatter.2.1 (fun _ => false) "b" (updateImageLinkWidthTransform 1) "hi".data⟩

end PPI
